import Mathlib

/-
Verification of the host/guest interoperability layer of go-taglib.

The development shallowly embeds the Go host (taglib.go, wazero.go,
taglib2.go) and the C++ guest entry points (taglib.cpp) of the repository.
Go and TagLib strings are modelled as lists of characters for the tag
codec, and as lists of byte values for the linear-memory marshaling layer;
guest linear memory is a total function from addresses to byte values, and
the guest allocator is modelled as a bump allocator handing out fresh,
disjoint, nonzero blocks, with a log of allocations and frees.
-/

set_option autoImplicit false

namespace GoTaglib

/-- Host and guest strings for the tag codec are lists of characters. The
wire delimiters (tab, U+0009, and vertical tab, U+000B) are single-byte in
UTF-8 and never occur inside a multi-byte UTF-8 sequence, so splitting at
the first such character agrees between Go's byte-level `strings.Cut` and
this character-level model, and likewise for TagLib's `find`/`substr`. -/
abbrev Str := List Char

/-- The tab character, the key/value separator of a tag row. -/
def tabC : Char := Char.ofNat 9

/-- The vertical-tab character, the separator inside a multi-value row. -/
def vtabC : Char := Char.ofNat 11

/-- A tag map, as an association list of keys to value lists. Go's
`map[string][]string` is unordered; map equality is lookup equality. -/
abbrev TagMap := List (Str × List Str)

/-- Embedding of Go `strings.Cut(row, "\t")` (ReadTags, taglib.go) and of
the guest's `row.find("\t")` / `substr(0, ti)` / `substr(ti + 1)` triple
(taglib_file_write_tags, taglib.cpp): split a row at its first tab,
returning the text before and after it, or `none` when there is no tab. -/
def cutRowTab : Str → Option (Str × Str)
  | [] => none
  | c :: cs =>
    if c = tabC then some ([], cs)
    else (cutRowTab cs).map (fun p => (c :: p.1, p.2))

/-- Go `strings.Join(vs, "\v")` used by WriteTags (taglib.go 626,
part_001 359). -/
def joinV (vs : List Str) : Str := List.intercalate [vtabC] vs

/-- TagLib `value.split("\v")` used by taglib_file_write_tags
(taglib.cpp 73): split at every vertical tab, keeping empty components. -/
def splitV (s : Str) : List Str := s.splitOn vtabC

/-- Membership test for a key in a tag map. -/
def hasKey (k : Str) (m : TagMap) : Bool := m.any (fun kv => decide (kv.1 = k))

/-- Go map read `tags[k]` / TagLib PropertyMap lookup: the value list of
the first (and, under the no-duplicate-keys invariant, only) entry. -/
def lookupTags (m : TagMap) (k : Str) : Option (List Str) :=
  (m.find? (fun kv => decide (kv.1 = k))).map Prod.snd

/-- TagLib `properties.erase(key)` (taglib.cpp 71). -/
def eraseKey (k : Str) (m : TagMap) : TagMap := m.filter (fun kv => decide (¬ kv.1 = k))

/-- TagLib `properties.replace(key, values)` (taglib.cpp 73): set the
key's value list, overwriting an existing entry. -/
def replaceKey (k : Str) (vs : List Str) (m : TagMap) : TagMap :=
  if hasKey k m then m.map (fun kv => if kv.1 = k then (k, vs) else kv)
  else m ++ [(k, vs)]

/-- One iteration of taglib_file_write_tags's row loop (taglib.cpp 65-75):
a row without a tab is skipped; an empty value erases the key; otherwise
the value is split on vertical tab and replaces the key's value list. -/
def applyRow (m : TagMap) (row : Str) : TagMap :=
  match cutRowTab row with
  | none => m
  | some (k, v) => if v = [] then eraseKey k m else replaceKey k (splitV v) m

/-- Property-map effect of taglib_file_write_tags on a valid file
(taglib.cpp 61-75): start from the file's existing properties, clear them
when the CLEAR bit is set, then apply each row in order. -/
def writeTagsApply (clearBit : Bool) (existing : TagMap) (rows : List Str) : TagMap :=
  rows.foldl applyRow (if clearBit then [] else existing)

/-- Row emission of taglib_file_tags (taglib.cpp 36-44): one
`key ++ tab ++ value` row per value of each property, in map order. -/
def tagsRows (m : TagMap) : List Str :=
  (m.map (fun kv => kv.2.map (fun v => kv.1 ++ tabC :: v))).flatten

/-- Go `tags[k] = append(tags[k], v)` (ReadTags, taglib.go 491): append
`v` to the key's value list, creating the entry when absent. -/
def appendEntry (m : TagMap) (k : Str) (v : Str) : TagMap :=
  if hasKey k m then m.map (fun kv => if kv.1 = k then (kv.1, kv.2 ++ [v]) else kv)
  else m ++ [(k, [v])]

/-- One iteration of ReadTags's row loop (taglib.go 486-492, part_001
170-176): cut at the first tab, skip tabless rows, append the value. -/
def decodeRow (m : TagMap) (row : Str) : TagMap :=
  match cutRowTab row with
  | none => m
  | some (k, v) => appendEntry m k v

/-- ReadTags's row loop from an arbitrary accumulator. -/
def tagsFromRowsA (acc : TagMap) (rows : List Str) : TagMap := rows.foldl decodeRow acc

/-- ReadTags's decoding of the guest's row list into a tag map. -/
def tagsFromRows (rows : List Str) : TagMap := tagsFromRowsA [] rows

/-- Row construction of WriteTags (taglib.go 624-627, part_001 357-360):
one `k ++ tab ++ join(vs, vtab)` row per map entry. The list order stands
for Go's arbitrary map iteration order; the theorems quantify over it. -/
def encodeRows (T : TagMap) : List Str := T.map (fun kv => kv.1 ++ tabC :: joinV kv.2)

/-- Tag maps representable by the wire format: keys are distinct and
tab-free (a tab would shift the key/value cut), value lists are nonempty
and not the single empty string (WriteTags encodes both as an empty value,
which taglib_file_write_tags treats as an erase), and values are free of
the vertical tab that separates multi-values on the wire. -/
def SupportedTagMap (T : TagMap) : Prop :=
  (T.map Prod.fst).Nodup ∧
  (∀ kv ∈ T, tabC ∉ kv.1) ∧
  (∀ kv ∈ T, kv.2 ≠ [] ∧ kv.2 ≠ [[]] ∧ ∀ v ∈ kv.2, vtabC ∉ v)

/-- Presence of a tab in a row, `strings.Cut`'s `ok` result. -/
def rowHasTab (row : Str) : Bool := (cutRowTab row).isSome

/-- Values carried by the well-formed rows whose key is `k`, in row
order. -/
def collectVals (k : Str) (rows : List Str) : List Str :=
  rows.filterMap (fun r =>
    match cutRowTab r with
    | none => none
    | some kv => if kv.1 = k then some kv.2 else none)

/-- The two domain errors of the host API (taglib.go 18-19, 672-673). -/
inductive GoErr
  | invalidFile
  | savingFile
deriving DecidableEq

/-- ReadTags's outcome once its `raw` slice is known (taglib.go 481-493,
part_001 165-177): a nil slice — left nil exactly when the guest returned
a null top-level pointer — yields ErrInvalidFile; otherwise the decoded
map is returned without error. -/
def readTagsOutcome (raw : Option (List Str)) : Except GoErr TagMap :=
  match raw with
  | none => Except.error GoErr.invalidFile
  | some rows => Except.ok (tagsFromRows rows)

/-- WriteTags's outcome once the guest's boolean result is known
(taglib.go 629-636, part_001 362-369): false yields ErrSavingFile. -/
def writeTagsOutcome (out : Bool) : Except GoErr Unit :=
  if out then Except.ok () else Except.error GoErr.savingFile

/-- Return value of taglib_file_tags (taglib.cpp 21-47): null for an
invalid file, otherwise the emitted rows. -/
def taglib_file_tags_ret (fileNull : Bool) (props : TagMap) : Option (List Str) :=
  if fileNull then none else some (tagsRows props)

/-- Return value of taglib_file_write_tags (taglib.cpp 52-84): false when
an argument is null or the file is invalid; true without saving when the
DIFF short-circuit hits; otherwise the result of file.save(). -/
def taglib_file_write_tags_ret (argsNull fileNull diffHit saveOk : Bool) : Bool :=
  if argsNull then false
  else if fileNull then false
  else if diffHit then true
  else saveOk

/-- Guest linear memory: one byte value per address. Reads in this model
always succeed; wazero's Memory().Read fails only past the memory bound,
which the decoding claims do not exercise. -/
abbrev Mem := Nat → Nat

/-- The bytes mem(p), mem(p+1), ..., mem(p+n-1), the successful result of
wazero `Memory().Read(p, n)`. -/
def memBytes (mem : Mem) (p : Nat) : Nat → List Nat
  | 0 => []
  | n + 1 => mem p :: memBytes mem (p + 1) n

/-- wazero `Memory().Write(p, bs)`. -/
def writeBytes (mem : Mem) (p : Nat) (bs : List Nat) : Mem :=
  fun a => if p ≤ a ∧ a < p + bs.length then bs.getD (a - p) 0 else mem a

/-- The four little-endian bytes of a 32-bit word. -/
def u32Bytes (x : Nat) : List Nat :=
  [x % 256, x / 256 % 256, x / 65536 % 256, x / 16777216 % 256]

/-- wazero `Memory().WriteUint32Le(p, x)`. -/
def writeU32le (mem : Mem) (p : Nat) (x : Nat) : Mem := writeBytes mem p (u32Bytes x)

/-- wazero `Memory().ReadUint32Le(p)`. -/
def readU32le (mem : Mem) (p : Nat) : Nat :=
  mem p + 256 * mem (p + 1) + 65536 * mem (p + 2) + 16777216 * mem (p + 3)

/-- First index of a NUL byte, `bytes.IndexByte(buf, 0)`. -/
def idxNul : List Nat → Option Nat
  | [] => none
  | b :: t => if b = 0 then some 0 else (idxNul t).map (fun i => i + 1)

/-- The doubling-window loop of module.readString (wazero.go 254-264,
part_001 594-604): read the next `size` bytes at offset `size`, return up
to a terminator if one appears, else append and double. `fuel` bounds the
number of iterations taken by the model; the source loops until a
terminator is found. -/
def readStringLoop (mem : Mem) (ptr : Nat) : Nat → List Nat → Nat → Option (List Nat)
  | 0, _, _ => none
  | fuel + 1, buf, size =>
    let next := memBytes mem (ptr + size) size
    match idxNul next with
    | some i => some (buf ++ next.take i)
    | none => readStringLoop mem ptr fuel (buf ++ next) (size + size)

/-- module.readString (wazero.go 245-265, part_001 585-605): read a fixed
64-byte window at ptr, return up to a terminator if present, otherwise
enter the doubling-window loop. -/
def readString (mem : Mem) (ptr : Nat) (fuel : Nat) : Option (List Nat) :=
  let buf := memBytes mem ptr 64
  match idxNul buf with
  | some i => some (buf.take i)
  | none => readStringLoop mem ptr fuel buf 64

/-- module.readStrings (wazero.go 267-285, part_001 623-638): walk 4-byte
slots from ptr, decoding each pointed-to string, stopping at the first
zero slot. `sfuel` bounds the slots walked, `strFuel` the per-string
windows; the source loops until the sentinel. -/
def readStrings (mem : Mem) (strFuel : Nat) : Nat → Nat → Option (List (List Nat))
  | 0, _ => none
  | sfuel + 1, ptr =>
    let sp := readU32le mem ptr
    if sp = 0 then some []
    else
      match readString mem sp strFuel with
      | none => none
      | some s => (readStrings mem strFuel sfuel (ptr + 4)).map (fun rest => s :: rest)

/-- Destination handling for a `*[]string` result in module.call
(wazero.go 186-189, part_001 526-529): a zero result word leaves the
destination slice nil; otherwise it is set by readStrings (which always
returns a non-nil slice). The outer Option is the model's fuel bound. -/
def stringsDest (mem : Mem) (strFuel sfuel : Nat) (r : Nat) :
    Option (Option (List (List Nat))) :=
  if r = 0 then some none
  else (readStrings mem strFuel sfuel r).map some

/-- module.readInts (wazero.go 287-297, part_001 640-650): read `n`
consecutive 32-bit little-endian words starting at ptr. -/
def readInts (mem : Mem) (ptr : Nat) (n : Nat) : List Nat :=
  (List.range n).map (fun i => readU32le mem (ptr + 4 * i))

/-- Guest allocator and memory state. The guest's malloc export is opaque;
it is modelled as a bump allocator: every allocation returns the next free
address, so blocks are fresh and pairwise disjoint. `live` is the multiset
of outstanding allocation pointers, `allocs` the log of (pointer, size)
pairs handed out, `freed` the log of pointers passed to the free export. -/
structure GuestMem where
  mem : Mem
  next : Nat
  live : Multiset Nat
  allocs : List (Nat × Nat)
  freed : List Nat

/-- The guest malloc export, in the bump model. -/
def malloc (st : GuestMem) (size : Nat) : Nat × GuestMem :=
  (st.next,
    { st with
      next := st.next + size
      live := st.next ::ₘ st.live
      allocs := st.allocs ++ [(st.next, size)] })

/-- The guest free export: one outstanding allocation is released. -/
def free (st : GuestMem) (p : Nat) : GuestMem :=
  { st with live := st.live.erase p, freed := st.freed ++ [p] }

/-- Write raw bytes into guest memory. -/
def gwriteBytes (st : GuestMem) (p : Nat) (bs : List Nat) : GuestMem :=
  { st with mem := writeBytes st.mem p bs }

/-- Write a 32-bit little-endian word into guest memory. -/
def gwriteU32le (st : GuestMem) (p x : Nat) : GuestMem :=
  { st with mem := writeU32le st.mem p x }

/-- The per-string loop shared verbatim by module.makeStrings
(wazero.go 226-238, part_001 569-578) and stack.strings
(taglib.go 213-225): for the i-th string, allocate its bytes plus one NUL,
write them, and write the block pointer into slot i; the returned list
logs the string-block pointers in order (tracked by stack.strings,
untracked by makeStrings). -/
def stringsLoop (arrayPtr : Nat) : GuestMem → List Nat → Nat → List (List Nat) →
    GuestMem × List Nat
  | st, tracked, _, [] => (st, tracked)
  | st, tracked, i, s :: rest =>
    let b := s ++ [0]
    let pst := malloc st b.length
    let st2 := gwriteBytes pst.2 pst.1 b
    let st3 := gwriteU32le st2 (arrayPtr + 4 * i) pst.1
    stringsLoop arrayPtr st3 (tracked ++ [pst.1]) (i + 1) rest

/-- module.makeStrings (wazero.go 220-243, part_001 567-583): allocate
(n+1) 4-byte pointer slots, run the per-string loop, then write 0 into
slot n as the end-of-list sentinel. Strings are their UTF-8 bytes. -/
def makeStrings (st : GuestMem) (ss : List (List Nat)) : Nat × GuestMem :=
  let ast := malloc st ((ss.length + 1) * 4)
  let st2 := (stringsLoop ast.1 ast.2 [] 0 ss).1
  let st3 := gwriteU32le st2 (ast.1 + 4 * ss.length) 0
  (ast.1, st3)

/-- The string-block pointers the bump allocator hands out for a string
list, starting at `base`: each block holds the string's bytes plus one
NUL. -/
def strPtrsFrom (base : Nat) : List (List Nat) → List Nat
  | [] => []
  | s :: rest => base :: strPtrsFrom (base + (s.length + 1)) rest

/-- Total guest-heap footprint of a string list's per-string blocks:
each string's bytes plus its NUL terminator. -/
def sumSizes (ss : List (List Nat)) : Nat := (ss.map (fun s => s.length + 1)).sum

/-- Store side of taglib_file_audioproperties on a valid file with audio
properties (taglib.cpp 86-103): allocate four 32-bit words and store
length-in-milliseconds, channels, sample rate, bitrate in that order. -/
def audiopropertiesStore (st : GuestMem) (lengthMs channels sampleRate bitrate : Nat) :
    Nat × GuestMem :=
  let ast := malloc st 16
  let st2 := gwriteU32le ast.2 ast.1 lengthMs
  let st3 := gwriteU32le st2 (ast.1 + 4) channels
  let st4 := gwriteU32le st3 (ast.1 + 8) sampleRate
  let st5 := gwriteU32le st4 (ast.1 + 12) bitrate
  (ast.1, st5)

/-- The Properties struct of taglib.go 496-506, with the duration held in
nanoseconds as Go's time.Duration does. -/
structure GoProperties where
  lengthNs : Nat
  channels : Nat
  sampleRate : Nat
  bitrate : Nat
deriving DecidableEq

/-- Decode side of ReadProperties (taglib.go 523-541, part_001 207-225):
read four consecutive words at the returned pointer and map word 0, taken
as milliseconds, to Length (time.Duration(ms) * time.Millisecond), word 1
to Channels, word 2 to SampleRate, word 3 to Bitrate. -/
def readPropertiesDecode (mem : Mem) (ptr : Nat) : GoProperties :=
  let raw := readInts mem ptr 4
  { lengthNs := raw.getD 0 0 * 1000000
    channels := raw.getD 1 0
    sampleRate := raw.getD 2 0
    bitrate := raw.getD 3 0 }

/-- The reusable call-frame scratch of the stack-based variant
(taglib.go 169-173): the argument words and the tracked guest-heap
pointers of the current frame. -/
structure GoStack where
  stack : List Nat
  ptrs : List Nat

/-- stack.int (taglib.go 194-196): push a word, nothing allocated. -/
def stkInt (s : GoStack) (i : Nat) : GoStack := { s with stack := s.stack ++ [i] }

/-- stack.string (taglib.go 198-208): allocate bytes plus NUL, write them,
push the pointer and track it for release. -/
def stkString (st : GuestMem) (s : GoStack) (bytes : List Nat) : GuestMem × GoStack :=
  let pst := malloc st (bytes.length + 1)
  let st2 := gwriteBytes pst.2 pst.1 (bytes ++ [0])
  (st2, { stack := s.stack ++ [pst.1], ptrs := s.ptrs ++ [pst.1] })

/-- stack.strings (taglib.go 210-233): allocate the (n+1)-slot block, run
the per-string loop tracking each string block, write the null sentinel,
push the slot-block pointer and track it last. -/
def stkStrings (st : GuestMem) (s : GoStack) (ss : List (List Nat)) : GuestMem × GoStack :=
  let ast := malloc st ((ss.length + 1) * 4)
  let lst := stringsLoop ast.1 ast.2 [] 0 ss
  let st3 := gwriteU32le lst.1 (ast.1 + 4 * ss.length) 0
  (st3, { stack := s.stack ++ [ast.1], ptrs := (s.ptrs ++ lst.2) ++ [ast.1] })

/-- The cleanup returned by stack.reset (taglib.go 185-191): free every
tracked pointer of the frame, in tracking order. -/
def stkCleanup (st : GuestMem) (s : GoStack) : GuestMem := s.ptrs.foldl free st

/-- An argument of the generic call operation, restricted to the shapes
that allocate or push words (booleans are words 0/1). -/
inductive CallArg
  | argWord (v : Nat)
  | argStr (bytes : List Nat)
  | argStrs (ss : List (List Nat))

/-- Encoding one argument onto the frame. -/
def pushArg (hs : GuestMem × GoStack) (a : CallArg) : GuestMem × GoStack :=
  match a with
  | CallArg.argWord v => (hs.1, stkInt hs.2 v)
  | CallArg.argStr b => stkString hs.1 hs.2 b
  | CallArg.argStrs ss => stkStrings hs.1 hs.2 ss

/-- A complete frame of the stack-based variant (taglib.go 92-167):
stack.reset clears the scratch state, the arguments are encoded, the
export is invoked (guest-internal; it does not touch the argument-side
allocation state), and the deferred cleanup frees every tracked pointer —
the cleanup is installed with defer, so it also runs when the call
panics. -/
def frameRun (st : GuestMem) (args : List CallArg) : GuestMem :=
  let hs := args.foldl pushArg (st, { stack := [], ptrs := [] })
  stkCleanup hs.1 hs.2

/-- Argument encoding of module.call (wazero.go 129-202, part_001
469-502): the same allocations as the stack-based frame, but module.call
contains no call to the guest free export on any path — argument
allocations stay outstanding until the module instance is closed. -/
def wazeroCallHeap (st : GuestMem) (args : List CallArg) : GuestMem :=
  (args.foldl pushArg (st, { stack := [], ptrs := [] })).1

/-- Access mode of a directory mount (wazero FSConfig). -/
inductive MountMode
  | ro
  | rw
deriving DecidableEq

/-- One directory mount of a session's filesystem configuration. -/
structure Mount where
  hostDir : Str
  guestDir : Str
  mode : MountMode
deriving DecidableEq

/-- wasmPath (wazero.go 27-29, part_001 653-655): filepath.ToSlash,
replacing the host path separator `sep` by '/' (the identity on POSIX
hosts, where sep is already '/'). -/
def wasmPath (sep : Char) (p : Str) : Str :=
  p.map (fun c => if c = sep then '/' else c)

/-- Go filepath.Dir restricted to the cleaned, absolute, slash-separated
paths produced by filepath.Abs on POSIX hosts: everything before the last
'/', or "/" when the last '/' is the leading one. -/
def goDir (p : Str) : Str :=
  let d := (p.reverse.dropWhile (fun c => !(c = '/'))).reverse
  if d.length ≤ 1 then d else d.dropLast

/-- Filesystem configuration built by newModule (wazero.go 89-116,
part_001 427-444): exactly one mount of `dir` at the guest path
wasmPath(dir), read-only or read-write per the flag. -/
def newModuleFS (sep : Char) (dir : Str) (readOnly : Bool) : List Mount :=
  [{ hostDir := dir
     guestDir := wasmPath sep dir
     mode := if readOnly then MountMode.ro else MountMode.rw }]

/-- Session mounts opened by ReadTags (taglib.go 470-471): the parent
directory of the path, read-only. -/
def readTagsSessionFS (sep : Char) (path : Str) : List Mount :=
  newModuleFS sep (goDir path) true

/-- Session mounts opened by ReadProperties (taglib.go 516-517):
the parent directory of the path, read-only. -/
def readPropertiesSessionFS (sep : Char) (path : Str) : List Mount :=
  newModuleFS sep (goDir path) true

/-- Session mounts opened by WriteTags (taglib.go 617-618): the parent
directory of the path, read-write. -/
def writeTagsSessionFS (sep : Char) (path : Str) : List Mount :=
  newModuleFS sep (goDir path) false

/-- Module configuration of the stack-based variant's LoadBinary
(taglib.go 328-334): a single read-write mount of the filesystem root,
shared by every operation of the process-global module. -/
def loadBinaryFS : List Mount :=
  [{ hostDir := ['/'], guestDir := ['/'], mode := MountMode.rw }]

/-- The mount list the claim prescribes for a session operating on
`path`: exactly one mount of the parent directory, at its guest-visible
path, with the given mode. -/
def minimalSessionFS (sep : Char) (path : Str) (mode : MountMode) : List Mount :=
  [{ hostDir := goDir path, guestDir := wasmPath sep (goDir path), mode := mode }]

/-- The observable steps of the runtime initializer. -/
inductive InitStep
  | mkCacheDir
  | newCompilationCache
  | newRuntime
  | instantiateWASI
  | registerFaultStubs
  | selectBinary
  | readOverrideBinary
  | compileModule
deriving DecidableEq

/-- The failure modes of the runtime initializer. -/
inductive InitErr
  | mkCacheDirFailed
  | newCacheFailed
  | hostModFailed
  | readOverrideFailed
  | compileFailed
deriving DecidableEq

/-- Environment facts the initializer depends on: which fallible steps
succeed, and whether a binary-path override is set. -/
structure InitEnv where
  mkdirOk : Bool
  cacheOk : Bool
  hostModOk : Bool
  overrideSet : Bool
  overrideReadOk : Bool
  compileOk : Bool
deriving DecidableEq

/-- Body of the getRuntimeOnce initializer (wazero.go 36-83, part_001
377-419): create the cache directory, open the compilation cache there,
build the runtime, instantiate WASI, register the fault-bridge stubs
(__cxa_allocate_exception / __cxa_throw), select the binary (reading the
override path when set), and compile it; each fallible step returns its
error early. Returns the steps performed, in order, and the result. -/
def runtimeInit (env : InitEnv) : List InitStep × Except InitErr Unit :=
  if !env.mkdirOk then ([InitStep.mkCacheDir], Except.error InitErr.mkCacheDirFailed)
  else if !env.cacheOk then
    ([InitStep.mkCacheDir, InitStep.newCompilationCache], Except.error InitErr.newCacheFailed)
  else if !env.hostModOk then
    ([InitStep.mkCacheDir, InitStep.newCompilationCache, InitStep.newRuntime,
      InitStep.instantiateWASI, InitStep.registerFaultStubs],
      Except.error InitErr.hostModFailed)
  else if env.overrideSet ∧ !env.overrideReadOk then
    ([InitStep.mkCacheDir, InitStep.newCompilationCache, InitStep.newRuntime,
      InitStep.instantiateWASI, InitStep.registerFaultStubs, InitStep.selectBinary,
      InitStep.readOverrideBinary],
      Except.error InitErr.readOverrideFailed)
  else if !env.compileOk then
    ((if env.overrideSet then
        [InitStep.mkCacheDir, InitStep.newCompilationCache, InitStep.newRuntime,
         InitStep.instantiateWASI, InitStep.registerFaultStubs, InitStep.selectBinary,
         InitStep.readOverrideBinary, InitStep.compileModule]
      else
        [InitStep.mkCacheDir, InitStep.newCompilationCache, InitStep.newRuntime,
         InitStep.instantiateWASI, InitStep.registerFaultStubs, InitStep.selectBinary,
         InitStep.compileModule]),
      Except.error InitErr.compileFailed)
  else
    ((if env.overrideSet then
        [InitStep.mkCacheDir, InitStep.newCompilationCache, InitStep.newRuntime,
         InitStep.instantiateWASI, InitStep.registerFaultStubs, InitStep.selectBinary,
         InitStep.readOverrideBinary, InitStep.compileModule]
      else
        [InitStep.mkCacheDir, InitStep.newCompilationCache, InitStep.newRuntime,
         InitStep.instantiateWASI, InitStep.registerFaultStubs, InitStep.selectBinary,
         InitStep.compileModule]),
      Except.ok ())

/-- Memo cell of sync.OnceValues (Go standard library, wrapping the
initializer at wazero.go 36 / part_001 377). -/
structure OnceState (α : Type) where
  memo : Option α

/-- One call through sync.OnceValues: the first call runs `f` and
memoizes its value — an error value as much as a success — and every
later call returns the memoized value without running `f`. The Bool
records whether this call ran `f`. Concurrent first callers block until
the single execution completes; this model serializes the calls. -/
def onceCall {α : Type} (f : Unit → α) (st : OnceState α) : α × OnceState α × Bool :=
  match st.memo with
  | some r => (r, st, false)
  | none => (f (), { memo := some (f ()) }, true)

/-- A sequence of `n` calls through the same sync.OnceValues cell,
returning each call's (result, ran-f) pair. -/
def onceCalls {α : Type} (f : Unit → α) : Nat → OnceState α → List (α × Bool)
  | 0, _ => []
  | n + 1, st =>
    let r := onceCall f st
    (r.1, r.2.2) :: onceCalls f n r.2.1

/-- Parameter word of an `int` argument in module.call (wazero.go
139-140, part_001 479-480): Go `uint64(a)`, the value modulo 2^64 — the
unsigned reading of the 64-bit two's-complement bit pattern. -/
def encGoInt (v : Int) : Nat := (v % (2 ^ 64 : Int)).toNat

/-- Parameter word of a `uint8` argument (wazero.go 141-142): Go
`uint64(a)`, value-preserving. -/
def encGoUint8 (v : Nat) : Nat := v % 2 ^ 64

/-- Parameter word of a `uint32` argument (wazero.go 143-144): Go
`uint64(a)`, value-preserving. -/
def encGoUint32 (v : Nat) : Nat := v % 2 ^ 64

/-- Parameter word of a `uint64` argument (wazero.go 145-146): the value
itself. -/
def encGoUint64 (v : Nat) : Nat := v % 2 ^ 64

/-- A concrete guest state for evaluating theorems on explicit inputs:
zeroed memory, bump allocator at address 4, nothing outstanding. -/
def wGm : GuestMem := ⟨fun _ => 0, 4, 0, [], []⟩

theorem memBytes_length (mem : Mem) : ∀ (n p : Nat), (memBytes mem p n).length = n := by
  intro n
  induction n with
  | zero => intro p; rfl
  | succ n ih => intro p; simp [memBytes, ih]

theorem memBytes_getD (mem : Mem) (d : Nat) :
    ∀ (n p i : Nat), i < n → (memBytes mem p n).getD i d = mem (p + i) := by
  intro n
  induction n with
  | zero => intro p i h; exact absurd h (Nat.not_lt_zero i)
  | succ n ih =>
    intro p i h
    cases i with
    | zero => simp [memBytes]
    | succ i =>
      have hi : i < n := by omega
      have := ih (p + 1) i hi
      have harith : p + 1 + i = p + (i + 1) := by omega
      simpa [memBytes, harith] using this

theorem memBytes_append (mem : Mem) :
    ∀ (a b p : Nat), memBytes mem p (a + b) = memBytes mem p a ++ memBytes mem (p + a) b := by
  intro a
  induction a with
  | zero => intro b p; simp [memBytes]
  | succ a ih =>
    intro b p
    have h1 : a + 1 + b = (a + b) + 1 := by omega
    have h2 : p + 1 + a = p + (a + 1) := by omega
    rw [h1]
    show mem p :: memBytes mem (p + 1) (a + b) = _
    rw [ih b (p + 1), h2]
    rfl

theorem memBytes_take (mem : Mem) :
    ∀ (i n p : Nat), i ≤ n → (memBytes mem p n).take i = memBytes mem p i := by
  intro i
  induction i with
  | zero => intro n p _; rfl
  | succ i ih =>
    intro n p h
    cases n with
    | zero => exact absurd h (by omega)
    | succ n =>
      show (mem p :: memBytes mem (p + 1) n).take (i + 1) = _
      simp only [List.take_succ_cons]
      rw [ih n (p + 1) (by omega)]
      rfl

theorem memBytes_eq_of_pointwise (mem : Mem) :
    ∀ (n p : Nat) (bs : List Nat), bs.length = n →
      (∀ i, i < n → mem (p + i) = bs.getD i 0) → memBytes mem p n = bs := by
  intro n
  induction n with
  | zero =>
    intro p bs hlen _
    cases bs with
    | nil => rfl
    | cons b t => simp at hlen
  | succ n ih =>
    intro p bs hlen h
    cases bs with
    | nil => simp at hlen
    | cons b t =>
      have hb : mem p = b := by simpa using h 0 (by omega)
      have ht : memBytes mem (p + 1) n = t := by
        refine ih (p + 1) t (by simpa using hlen) ?_
        intro i hi
        have := h (i + 1) (by omega)
        have harith : p + (i + 1) = p + 1 + i := by omega
        rw [harith] at this
        simpa using this
      show mem p :: memBytes mem (p + 1) n = b :: t
      rw [hb, ht]

theorem memBytes_congr (m1 m2 : Mem) (n p : Nat)
    (h : ∀ i, i < n → m1 (p + i) = m2 (p + i)) : memBytes m1 p n = memBytes m2 p n := by
  refine memBytes_eq_of_pointwise m1 n p (memBytes m2 p n) (memBytes_length m2 n p) ?_
  intro i hi
  rw [memBytes_getD m2 0 n p i hi]
  exact h i hi

theorem writeBytes_apply_lt (mem : Mem) (p : Nat) (bs : List Nat) (a : Nat) (h : a < p) :
    writeBytes mem p bs a = mem a := by
  simp only [writeBytes]
  rw [if_neg]
  omega

theorem writeBytes_apply_ge (mem : Mem) (p : Nat) (bs : List Nat) (a : Nat)
    (h : p + bs.length ≤ a) : writeBytes mem p bs a = mem a := by
  simp only [writeBytes]
  rw [if_neg]
  omega

theorem writeBytes_apply_in (mem : Mem) (p : Nat) (bs : List Nat) (a : Nat)
    (h1 : p ≤ a) (h2 : a < p + bs.length) : writeBytes mem p bs a = bs.getD (a - p) 0 := by
  simp only [writeBytes]
  rw [if_pos]
  exact ⟨h1, h2⟩

theorem memBytes_writeBytes_self (mem : Mem) (p : Nat) (bs : List Nat) :
    memBytes (writeBytes mem p bs) p bs.length = bs := by
  refine memBytes_eq_of_pointwise _ bs.length p bs rfl ?_
  intro i hi
  rw [writeBytes_apply_in mem p bs (p + i) (by omega) (by omega)]
  congr 1
  omega

theorem readU32le_congr (m1 m2 : Mem) (p : Nat)
    (h : ∀ k, k < 4 → m1 (p + k) = m2 (p + k)) : readU32le m1 p = readU32le m2 p := by
  have h0 := h 0 (by omega)
  have h1 := h 1 (by omega)
  have h2 := h 2 (by omega)
  have h3 := h 3 (by omega)
  simp only [Nat.add_zero] at h0
  simp only [readU32le, h0, h1, h2, h3]

theorem readU32le_writeBytes_disjoint (mem : Mem) (p : Nat) (bs : List Nat) (q : Nat)
    (h : q + 4 ≤ p ∨ p + bs.length ≤ q) :
    readU32le (writeBytes mem p bs) q = readU32le mem q := by
  refine readU32le_congr _ _ q ?_
  intro k hk
  rcases h with h | h
  · exact writeBytes_apply_lt mem p bs (q + k) (by omega)
  · exact writeBytes_apply_ge mem p bs (q + k) (by omega)

theorem u32Bytes_length (x : Nat) : (u32Bytes x).length = 4 := rfl

theorem readU32le_writeU32le_self (mem : Mem) (p x : Nat) (h : x < 2 ^ 32) :
    readU32le (writeU32le mem p x) p = x := by
  have g : ∀ k, k < 4 → writeU32le mem p x (p + k) = (u32Bytes x).getD k 0 := by
    intro k hk
    have := writeBytes_apply_in mem p (u32Bytes x) (p + k) (by omega)
      (by rw [u32Bytes_length]; omega)
    simpa using this
  have g0 := g 0 (by omega)
  have g1 := g 1 (by omega)
  have g2 := g 2 (by omega)
  have g3 := g 3 (by omega)
  simp only [Nat.add_zero] at g0
  simp only [readU32le, writeU32le] at *
  rw [g0, g1, g2, g3]
  have e0 : (u32Bytes x).getD 0 0 = x % 256 := rfl
  have e1 : (u32Bytes x).getD 1 0 = x / 256 % 256 := rfl
  have e2 : (u32Bytes x).getD 2 0 = x / 65536 % 256 := rfl
  have e3 : (u32Bytes x).getD 3 0 = x / 16777216 % 256 := rfl
  rw [e0, e1, e2, e3]
  omega

theorem idxNul_eq_none_iff : ∀ (l : List Nat),
    idxNul l = none ↔ ∀ j, j < l.length → l.getD j 1 ≠ 0 := by
  intro l
  induction l with
  | nil => simp [idxNul]
  | cons b t ih =>
    by_cases hb : b = 0
    · subst hb
      simp only [idxNul, if_pos rfl]
      constructor
      · intro h; exact absurd h (by simp)
      · intro h
        have := h 0 (by simp)
        simp [List.getD] at this
    · simp only [idxNul, if_neg hb]
      constructor
      · intro h j hj
        cases j with
        | zero => simpa [List.getD] using hb
        | succ j =>
          have ht : idxNul t = none := by
            cases hc : idxNul t with
            | none => rfl
            | some i => rw [hc] at h; simp at h
          have := (ih.mp ht) j (by simpa using hj)
          simpa [List.getD] using this
      · intro h
        have ht : idxNul t = none := by
          refine ih.mpr ?_
          intro j hj
          have := h (j + 1) (by simpa using hj)
          simpa [List.getD] using this
        rw [ht]
        rfl

theorem idxNul_eq_some_iff : ∀ (l : List Nat) (i : Nat),
    idxNul l = some i ↔
      i < l.length ∧ l.getD i 1 = 0 ∧ ∀ j, j < i → l.getD j 1 ≠ 0 := by
  intro l
  induction l with
  | nil => intro i; simp [idxNul]
  | cons b t ih =>
    intro i
    by_cases hb : b = 0
    · subst hb
      simp only [idxNul, if_pos rfl]
      constructor
      · intro h
        have hi : i = 0 := by simpa [Eq.comm] using h
        subst hi
        refine ⟨by simp, by simp [List.getD], by omega⟩
      · rintro ⟨_, _, hall⟩
        cases i with
        | zero => rfl
        | succ i =>
          have := hall 0 (by omega)
          simp [List.getD] at this
    · simp only [idxNul, if_neg hb]
      constructor
      · intro h
        cases hc : idxNul t with
        | none => rw [hc] at h; simp at h
        | some i' =>
          rw [hc] at h
          have hi : i = i' + 1 := by
            simp at h
            omega
          subst hi
          obtain ⟨h1, h2, h3⟩ := (ih i').mp hc
          refine ⟨by simpa using h1, by simpa [List.getD] using h2, ?_⟩
          intro j hj
          cases j with
          | zero => simpa [List.getD] using hb
          | succ j =>
            have := h3 j (by omega)
            simpa [List.getD] using this
      · rintro ⟨h1, h2, h3⟩
        cases i with
        | zero => simp [List.getD] at h2; exact absurd h2 hb
        | succ i =>
          have ht : idxNul t = some i := by
            refine (ih i).mpr ⟨by simpa using h1, by simpa [List.getD] using h2, ?_⟩
            intro j hj
            have := h3 (j + 1) (by omega)
            simpa [List.getD] using this
          rw [ht]
          rfl

theorem idxNul_memBytes_none (mem : Mem) (p n : Nat)
    (h : ∀ i, i < n → mem (p + i) ≠ 0) : idxNul (memBytes mem p n) = none := by
  refine (idxNul_eq_none_iff _).mpr ?_
  intro j hj
  rw [memBytes_length] at hj
  rw [memBytes_getD mem 1 n p j hj]
  exact h j hj

theorem idxNul_memBytes_some (mem : Mem) (p n sz : Nat) (hlt : n < sz)
    (h0 : mem (p + n) = 0) (hnz : ∀ i, i < n → mem (p + i) ≠ 0) :
    idxNul (memBytes mem p sz) = some n := by
  refine (idxNul_eq_some_iff _ n).mpr ?_
  refine ⟨by rw [memBytes_length]; exact hlt, ?_, ?_⟩
  · rw [memBytes_getD mem 1 sz p n hlt]; exact h0
  · intro j hj
    rw [memBytes_getD mem 1 sz p j (by omega)]
    exact hnz j hj

theorem readStringLoop_correct (mem : Mem) (ptr n : Nat)
    (h0 : mem (ptr + n) = 0) (hnz : ∀ i, i < n → mem (ptr + i) ≠ 0) :
    ∀ (fuel size : Nat), 0 < size → size ≤ n → n < size * 2 ^ fuel →
      readStringLoop mem ptr fuel (memBytes mem ptr size) size = some (memBytes mem ptr n) := by
  intro fuel
  induction fuel with
  | zero =>
    intro size hpos hle hlt
    simp at hlt
    omega
  | succ fuel ih =>
    intro size hpos hle hlt
    show (match idxNul (memBytes mem (ptr + size) size) with
      | some i => some (memBytes mem ptr size ++ (memBytes mem (ptr + size) size).take i)
      | none => readStringLoop mem ptr fuel
          (memBytes mem ptr size ++ memBytes mem (ptr + size) size) (size + size)) =
      some (memBytes mem ptr n)
    by_cases hcase : n < size + size
    · have hfound : idxNul (memBytes mem (ptr + size) size) = some (n - size) := by
        refine idxNul_memBytes_some mem (ptr + size) (n - size) size (by omega) ?_ ?_
        · have : ptr + size + (n - size) = ptr + n := by omega
          rw [this]; exact h0
        · intro i hi
          have : ptr + size + i = ptr + (size + i) := by omega
          rw [this]
          exact hnz (size + i) (by omega)
      rw [hfound]
      show some (memBytes mem ptr size ++ (memBytes mem (ptr + size) size).take (n - size)) =
        some (memBytes mem ptr n)
      have htake : (memBytes mem (ptr + size) size).take (n - size) =
          memBytes mem (ptr + size) (n - size) :=
        memBytes_take mem (n - size) size (ptr + size) (by omega)
      rw [htake]
      have happ : memBytes mem ptr size ++ memBytes mem (ptr + size) (n - size) =
          memBytes mem ptr n := by
        have := memBytes_append mem size (n - size) ptr
        have harith : size + (n - size) = n := by omega
        rw [harith] at this
        exact this.symm
      rw [happ]
    · have hnone : idxNul (memBytes mem (ptr + size) size) = none := by
        refine idxNul_memBytes_none mem (ptr + size) size ?_
        intro i hi
        have : ptr + size + i = ptr + (size + i) := by omega
        rw [this]
        exact hnz (size + i) (by omega)
      rw [hnone]
      show readStringLoop mem ptr fuel
          (memBytes mem ptr size ++ memBytes mem (ptr + size) size) (size + size) =
        some (memBytes mem ptr n)
      have happ : memBytes mem ptr size ++ memBytes mem (ptr + size) size =
          memBytes mem ptr (size + size) := (memBytes_append mem size size ptr).symm
      rw [happ]
      refine ih (size + size) (by omega) (by omega) ?_
      have : size * 2 ^ (fuel + 1) = (size + size) * 2 ^ fuel := by ring
      omega

/-- C4. String decoding is byte-exact under the doubling-window strategy:
for every guest memory in which the first NUL byte at or after `ptr` sits
at offset `n` (and enough fuel for the model's loop bound, which the real
loop does not need), module.readString returns exactly the bytes from
`ptr` up to and excluding that NUL — it first reads a 64-byte window at
ptr and then, while no terminator is found, reads the next chunk at the
current offset and doubles the window. -/
theorem readString_decodes_upto_first_nul (mem : Mem) (ptr n fuel : Nat)
    (h0 : mem (ptr + n) = 0) (hnz : ∀ i, i < n → mem (ptr + i) ≠ 0)
    (hfuel : n < 64 * 2 ^ fuel) :
    readString mem ptr fuel = some (memBytes mem ptr n) := by
  show (match idxNul (memBytes mem ptr 64) with
    | some i => some ((memBytes mem ptr 64).take i)
    | none => readStringLoop mem ptr fuel (memBytes mem ptr 64) 64) =
    some (memBytes mem ptr n)
  by_cases hcase : n < 64
  · have hfound : idxNul (memBytes mem ptr 64) = some n :=
      idxNul_memBytes_some mem ptr n 64 hcase h0 hnz
    rw [hfound]
    show some ((memBytes mem ptr 64).take n) = some (memBytes mem ptr n)
    rw [memBytes_take mem n 64 ptr (by omega)]
  · have hnone : idxNul (memBytes mem ptr 64) = none :=
      idxNul_memBytes_none mem ptr 64 (fun i hi => hnz i (by omega))
    rw [hnone]
    show readStringLoop mem ptr fuel (memBytes mem ptr 64) 64 = some (memBytes mem ptr n)
    exact readStringLoop_correct mem ptr n h0 hnz fuel 64 (by omega) (by omega) hfuel

/-- Witness for C4 at a concrete memory whose first NUL sits at offset 70,
past the initial 64-byte window, exercising the doubling loop. -/
theorem readString_decodes_upto_first_nul_witness :
    readString (fun a => if a = 70 then 0 else 1) 0 1 =
      some (memBytes (fun a => if a = 70 then 0 else 1) 0 70) :=
  readString_decodes_upto_first_nul (fun a => if a = 70 then 0 else 1) 0 70 1
    (by decide) (by decide) (by decide)

theorem readU32le_writeU32le_disjoint (mem : Mem) (p x q : Nat)
    (h : q + 4 ≤ p ∨ p + 4 ≤ q) :
    readU32le (writeU32le mem p x) q = readU32le mem q := by
  refine readU32le_writeBytes_disjoint mem p (u32Bytes x) q ?_
  rw [u32Bytes_length]
  exact h

theorem readInts_four (mem : Mem) (p : Nat) :
    readInts mem p 4 =
      [readU32le mem p, readU32le mem (p + 4), readU32le mem (p + 8), readU32le mem (p + 12)] :=
  rfl

/-- C6. Audio-properties decoding order: on a file whose audio-properties
export succeeded, the guest stores duration-ms, channels, sample-rate,
bitrate as four consecutive 32-bit little-endian words, and ReadProperties
reads exactly those four words at the returned pointer, mapping word 0 to
Length (milliseconds, converted to a nanosecond duration), word 1 to
Channels, word 2 to SampleRate and word 3 to Bitrate. -/
theorem readProperties_word_order (st : GuestMem) (d c r b : Nat)
    (hd : d < 2 ^ 32) (hc : c < 2 ^ 32) (hr : r < 2 ^ 32) (hb : b < 2 ^ 32) :
    readInts ((audiopropertiesStore st d c r b).2).mem (audiopropertiesStore st d c r b).1 4 =
      [d, c, r, b] ∧
    readPropertiesDecode ((audiopropertiesStore st d c r b).2).mem
        (audiopropertiesStore st d c r b).1 =
      { lengthNs := d * 1000000, channels := c, sampleRate := r, bitrate := b } := by
  have hmem : ((audiopropertiesStore st d c r b).2).mem =
      writeU32le (writeU32le (writeU32le (writeU32le st.mem st.next d)
        (st.next + 4) c) (st.next + 8) r) (st.next + 12) b := rfl
  have hptr : (audiopropertiesStore st d c r b).1 = st.next := rfl
  have w0 : readU32le ((audiopropertiesStore st d c r b).2).mem st.next = d := by
    rw [hmem]
    rw [readU32le_writeU32le_disjoint _ _ _ _ (Or.inl (by omega))]
    rw [readU32le_writeU32le_disjoint _ _ _ _ (Or.inl (by omega))]
    rw [readU32le_writeU32le_disjoint _ _ _ _ (Or.inl (by omega))]
    exact readU32le_writeU32le_self st.mem st.next d hd
  have w1 : readU32le ((audiopropertiesStore st d c r b).2).mem (st.next + 4) = c := by
    rw [hmem]
    rw [readU32le_writeU32le_disjoint _ _ _ _ (Or.inl (by omega))]
    rw [readU32le_writeU32le_disjoint _ _ _ _ (Or.inl (by omega))]
    exact readU32le_writeU32le_self _ (st.next + 4) c hc
  have w2 : readU32le ((audiopropertiesStore st d c r b).2).mem (st.next + 8) = r := by
    rw [hmem]
    rw [readU32le_writeU32le_disjoint _ _ _ _ (Or.inl (by omega))]
    exact readU32le_writeU32le_self _ (st.next + 8) r hr
  have w3 : readU32le ((audiopropertiesStore st d c r b).2).mem (st.next + 12) = b := by
    rw [hmem]
    exact readU32le_writeU32le_self _ (st.next + 12) b hb
  have hints : readInts ((audiopropertiesStore st d c r b).2).mem
      (audiopropertiesStore st d c r b).1 4 = [d, c, r, b] := by
    rw [readInts_four, hptr, w0, w1, w2, w3]
  refine ⟨hints, ?_⟩
  show GoProperties.mk _ _ _ _ = _
  rw [hints]
  rfl

/-- Witness for C6 at a concrete store of (1 ms, 2 channels, 3 Hz,
4 kbit/s). -/
theorem readProperties_word_order_witness :
    readPropertiesDecode ((audiopropertiesStore wGm 1 2 3 4).2).mem
        (audiopropertiesStore wGm 1 2 3 4).1 =
      { lengthNs := 1000000, channels := 2, sampleRate := 3, bitrate := 4 } :=
  (readProperties_word_order wGm 1 2 3 4 (by decide) (by decide) (by decide) (by decide)).2

theorem onceCalls_after_memo {α : Type} (f : Unit → α) (r : α) :
    ∀ n, onceCalls f n ⟨some r⟩ = List.replicate n (r, false) := by
  intro n
  induction n with
  | zero => rfl
  | succ n ih => simp [onceCalls, onceCall, ih, List.replicate_succ]

/-- C8. Initialization is memoized with single execution: over any number
of calls to the runtime initializer, the first call runs the body — which
performs cache-directory creation, compilation-cache setup, runtime and
WASI construction, fault-bridge stub registration, binary selection (with
override read when set) and compilation — and every later call returns
the same (steps, result) value without running the body again, also when
the first call failed; shown for the full success environments with and
without a binary override, and for a failing first call. -/
theorem getRuntimeOnce_memoization :
    (∀ (env : InitEnv) (n : Nat),
      onceCalls (fun _ => runtimeInit env) (n + 1) ⟨none⟩ =
        (runtimeInit env, true) :: List.replicate n (runtimeInit env, false)) ∧
    runtimeInit ⟨true, true, true, false, true, true⟩ =
      ([InitStep.mkCacheDir, InitStep.newCompilationCache, InitStep.newRuntime,
        InitStep.instantiateWASI, InitStep.registerFaultStubs, InitStep.selectBinary,
        InitStep.compileModule], Except.ok ()) ∧
    runtimeInit ⟨true, true, true, true, true, true⟩ =
      ([InitStep.mkCacheDir, InitStep.newCompilationCache, InitStep.newRuntime,
        InitStep.instantiateWASI, InitStep.registerFaultStubs, InitStep.selectBinary,
        InitStep.readOverrideBinary, InitStep.compileModule], Except.ok ()) ∧
    runtimeInit ⟨false, true, true, false, true, true⟩ =
      ([InitStep.mkCacheDir], Except.error InitErr.mkCacheDirFailed) := by
  refine ⟨?_, rfl, rfl, rfl⟩
  intro env n
  simp only [onceCalls, onceCall]
  rw [onceCalls_after_memo]

/-- C9. Integer argument encoding: each integer argument of module.call
is encoded into its 64-bit parameter word by Go's conversion to uint64 —
the unsigned value of the argument's bit pattern. For the sub-word widths
uint8 and uint32 this is zero-extension (the word equals the value and
its high bits are zero); for the word-sized signed int the word is the
unsigned reading of the 64-bit two's-complement pattern, so a negative
value v maps to 2^64 + v. -/
theorem integer_arg_zero_extension :
    (∀ v : Nat, v < 2 ^ 8 → encGoUint8 v = v ∧ encGoUint8 v < 2 ^ 8) ∧
    (∀ v : Nat, v < 2 ^ 32 → encGoUint32 v = v ∧ encGoUint32 v < 2 ^ 32) ∧
    (∀ v : Nat, v < 2 ^ 64 → encGoUint64 v = v) ∧
    (∀ v : Int, -2 ^ 63 ≤ v → v < 2 ^ 63 →
      (encGoInt v : Int) = v % 2 ^ 64 ∧
      (0 ≤ v → (encGoInt v : Int) = v) ∧
      (v < 0 → (encGoInt v : Int) = 2 ^ 64 + v)) := by
  refine ⟨?_, ?_, ?_, ?_⟩
  · intro v h
    unfold encGoUint8
    omega
  · intro v h
    unfold encGoUint32
    omega
  · intro v h
    unfold encGoUint64
    omega
  · intro v h1 h2
    unfold encGoInt
    refine ⟨by omega, by omega, by omega⟩

/-- Witness for C9 at uint8 200 and int -1: the sub-word value passes
through zero-extended, the negative int maps to its two's-complement
word. -/
theorem integer_arg_zero_extension_witness :
    encGoUint8 200 = 200 ∧ (encGoInt (-1) : Int) = 2 ^ 64 + (-1) :=
  ⟨(integer_arg_zero_extension.1 200 (by decide)).1,
   (integer_arg_zero_extension.2.2.2 (-1) (by decide) (by decide)).2.2 (by decide)⟩

/-- Amended C7. In the per-operation module constructor, every session is
configured with exactly one directory mount — the parent directory of the
path being operated on, mounted at its guest-visible path — and the mode
matches the operation: ReadTags and ReadProperties open read-only,
WriteTags opens read-write. (The stack-based variant's global LoadBinary
session instead mounts the filesystem root read-write for all operations;
see the counterexample.) -/
theorem session_mount_scoping :
    ∀ (sep : Char) (path : Str),
      readTagsSessionFS sep path = minimalSessionFS sep path MountMode.ro ∧
      readPropertiesSessionFS sep path = minimalSessionFS sep path MountMode.ro ∧
      writeTagsSessionFS sep path = minimalSessionFS sep path MountMode.rw ∧
      (readTagsSessionFS sep path).length = 1 ∧
      (readPropertiesSessionFS sep path).length = 1 ∧
      (writeTagsSessionFS sep path).length = 1 ∧
      (∀ m ∈ readTagsSessionFS sep path, m.hostDir = goDir path ∧ m.mode = MountMode.ro) ∧
      (∀ m ∈ writeTagsSessionFS sep path, m.hostDir = goDir path ∧ m.mode = MountMode.rw) := by
  intro sep path
  refine ⟨rfl, rfl, rfl, rfl, rfl, rfl, ?_, ?_⟩
  · intro m hm
    simp only [readTagsSessionFS, newModuleFS, List.mem_singleton] at hm
    rw [hm]
    exact ⟨rfl, rfl⟩
  · intro m hm
    simp only [writeTagsSessionFS, newModuleFS, List.mem_singleton] at hm
    rw [hm]
    exact ⟨rfl, rfl⟩

/-- Counterexample for C7 as stated: the stack-based variant's LoadBinary
session (used by its File read and write operations alike) is not the
minimal parent-directory mount of the file "/a/b.mp3" in either mode —
it mounts the filesystem root, read-write. -/
theorem loadBinary_mount_counterexample :
    loadBinaryFS ≠ minimalSessionFS '/' (String.toList "/a/b.mp3") MountMode.ro ∧
    loadBinaryFS ≠ minimalSessionFS '/' (String.toList "/a/b.mp3") MountMode.rw ∧
    ∃ m ∈ loadBinaryFS, m.mode = MountMode.rw ∧ m.hostDir = ['/'] := by
  decide

theorem foldl_free_cancel : ∀ (news : List Nat) (st : GuestMem) (base : Multiset Nat),
    st.live = base + ↑news →
      (news.foldl free st).live = base ∧ (news.foldl free st).freed = st.freed ++ news := by
  intro news
  induction news with
  | nil =>
    intro st base h
    simpa using h
  | cons p t ih =>
    intro st base h
    rw [List.foldl_cons]
    have hl : (free st p).live = base + ↑t := by
      show (st.live.erase p) = base + ↑t
      rw [h]
      have hc : base + ↑(p :: t) = p ::ₘ (base + ↑t) := by
        simp only [← Multiset.cons_coe, ← Multiset.singleton_add]
        abel
      rw [hc, Multiset.erase_cons_head]
    have hrec := ih (free st p) base hl
    refine ⟨hrec.1, ?_⟩
    rw [hrec.2]
    show st.freed ++ [p] ++ t = st.freed ++ p :: t
    simp

theorem stringsLoop_alloc_spec (aP : Nat) :
    ∀ (ss : List (List Nat)) (st : GuestMem) (tracked : List Nat) (i : Nat),
      ∃ ps : List Nat,
        (stringsLoop aP st tracked i ss).2 = tracked ++ ps ∧
        (stringsLoop aP st tracked i ss).1.live = st.live + ↑ps ∧
        (stringsLoop aP st tracked i ss).1.freed = st.freed := by
  intro ss
  induction ss with
  | nil =>
    intro st tracked i
    exact ⟨[], by simp [stringsLoop], by simp [stringsLoop], rfl⟩
  | cons s rest ih =>
    intro st tracked i
    obtain ⟨ps, h1, h2, h3⟩ := ih
      (gwriteU32le (gwriteBytes (malloc st (s ++ [0]).length).2
        (malloc st (s ++ [0]).length).1 (s ++ [0])) (aP + 4 * i)
        (malloc st (s ++ [0]).length).1)
      (tracked ++ [(malloc st (s ++ [0]).length).1]) (i + 1)
    refine ⟨st.next :: ps, ?_, ?_, ?_⟩
    · show (stringsLoop aP _ _ _ rest).2 = _
      rw [h1]
      simp [malloc]
    · show (stringsLoop aP _ _ _ rest).1.live = _
      rw [h2]
      show (st.next ::ₘ st.live) + ↑ps = st.live + ↑(st.next :: ps)
      simp only [← Multiset.cons_coe, ← Multiset.singleton_add]
      abel
    · show (stringsLoop aP _ _ _ rest).1.freed = _
      rw [h3]
      rfl

theorem pushArg_spec (a : CallArg) (st : GuestMem) (s : GoStack) :
    ∃ ps : List Nat,
      (pushArg (st, s) a).2.ptrs = s.ptrs ++ ps ∧
      (pushArg (st, s) a).1.live = st.live + ↑ps ∧
      (pushArg (st, s) a).1.freed = st.freed := by
  cases a with
  | argWord v => exact ⟨[], by simp [pushArg, stkInt], by simp [pushArg, stkInt], rfl⟩
  | argStr b =>
    refine ⟨[st.next], by simp [pushArg, stkString, malloc], ?_, rfl⟩
    show (st.next ::ₘ st.live) = st.live + ↑[st.next]
    simp only [← Multiset.cons_coe, ← Multiset.singleton_add, Multiset.coe_nil]
    abel
  | argStrs ss =>
    obtain ⟨ps, h1, h2, h3⟩ := stringsLoop_alloc_spec st.next ss
      (malloc st ((ss.length + 1) * 4)).2 [] 0
    refine ⟨ps ++ [st.next], ?_, ?_, ?_⟩
    · show (s.ptrs ++ (stringsLoop st.next _ [] 0 ss).2) ++ [st.next] = _
      rw [h1]
      simp
    · show (stringsLoop st.next _ [] 0 ss).1.live = _
      rw [h2]
      show (st.next ::ₘ st.live) + ↑ps = st.live + ↑(ps ++ [st.next])
      simp only [← Multiset.coe_add, ← Multiset.cons_coe, ← Multiset.singleton_add]
      abel
    · show (stringsLoop st.next _ [] 0 ss).1.freed = _
      rw [h3]
      rfl

theorem encodeArgs_spec : ∀ (args : List CallArg) (st : GuestMem) (s : GoStack),
    ∃ ps : List Nat,
      (args.foldl pushArg (st, s)).2.ptrs = s.ptrs ++ ps ∧
      (args.foldl pushArg (st, s)).1.live = st.live + ↑ps ∧
      (args.foldl pushArg (st, s)).1.freed = st.freed := by
  intro args
  induction args with
  | nil => intro st s; exact ⟨[], by simp, by simp, rfl⟩
  | cons a t ih =>
    intro st s
    obtain ⟨ps1, ha1, ha2, ha3⟩ := pushArg_spec a st s
    obtain ⟨ps2, hb1, hb2, hb3⟩ := ih (pushArg (st, s) a).1 (pushArg (st, s) a).2
    refine ⟨ps1 ++ ps2, ?_, ?_, ?_⟩
    · show (t.foldl pushArg (pushArg (st, s) a)).2.ptrs = _
      rw [hb1, ha1]
      simp
    · show (t.foldl pushArg (pushArg (st, s) a)).1.live = _
      rw [hb2, ha2]
      simp only [← Multiset.coe_add]
      abel
    · show (t.foldl pushArg (pushArg (st, s) a)).1.freed = _
      rw [hb3, ha3]

/-- Amended C3. In the stack-based call frame (stack.reset and its
deferred cleanup), every guest-heap allocation made while encoding a
call's arguments — each string block, each per-string block of a string
list, and the string-list slot block — is tracked and freed via the guest
free export before the frame is discarded, restoring the multiset of
outstanding argument-side allocations to its pre-call value on every exit
path; module.call of the module-based variant, by contrast, contains no
call to the free export at all — its argument allocations are reclaimed
only by closing the session. -/
theorem call_frame_allocation_discipline :
    (∀ (st : GuestMem) (args : List CallArg),
      (frameRun st args).live = st.live ∧
      ∃ ps : List Nat,
        (args.foldl pushArg (st, ⟨[], []⟩)).2.ptrs = ps ∧
        (args.foldl pushArg (st, ⟨[], []⟩)).1.live = st.live + ↑ps ∧
        (frameRun st args).freed = st.freed ++ ps) ∧
    (∀ (st : GuestMem) (args : List CallArg),
      (wazeroCallHeap st args).freed = st.freed) := by
  constructor
  · intro st args
    obtain ⟨ps, h1, h2, h3⟩ := encodeArgs_spec args st ⟨[], []⟩
    rw [List.nil_append] at h1
    have hclean := foldl_free_cancel ps (args.foldl pushArg (st, ⟨[], []⟩)).1 st.live h2
    have hframe : frameRun st args =
        ps.foldl free (args.foldl pushArg (st, ⟨[], []⟩)).1 := by
      show stkCleanup _ _ = _
      rw [stkCleanup, h1]
    refine ⟨?_, ps, h1, h2, ?_⟩
    · rw [hframe]
      exact hclean.1
    · rw [hframe, hclean.2, h3]
  · intro st args
    obtain ⟨ps, h1, h2, h3⟩ := encodeArgs_spec args st ⟨[], []⟩
    exact h3

/-- Counterexample for C3 as stated: a module.call invocation encoding one
string argument, started from a heap with no outstanding allocations,
ends with the string block still outstanding and nothing freed —
module.call has no path that calls the guest free export. -/
theorem module_call_no_free_counterexample :
    (wazeroCallHeap wGm [CallArg.argStr [112]]).live ≠ wGm.live ∧
    (wazeroCallHeap wGm [CallArg.argStr [112]]).freed = [] := by
  constructor
  · decide
  · rfl

theorem lookupTags_cons (kv : Str × List Str) (m : TagMap) (k : Str) :
    lookupTags (kv :: m) k = if kv.1 = k then some kv.2 else lookupTags m k := by
  by_cases h : kv.1 = k
  · simp [lookupTags, List.find?, h]
  · simp [lookupTags, List.find?, h]

theorem hasKey_cons (kv : Str × List Str) (m : TagMap) (k : Str) :
    hasKey k (kv :: m) = (decide (kv.1 = k) || hasKey k m) := by
  simp [hasKey]

theorem lookupTags_none_iff (m : TagMap) (k : Str) :
    lookupTags m k = none ↔ hasKey k m = false := by
  induction m with
  | nil => simp [lookupTags, hasKey]
  | cons kv t ih =>
    rw [lookupTags_cons, hasKey_cons]
    by_cases h : kv.1 = k
    · simp [h]
    · simp [h, ih]

theorem lookupTags_append (m l : TagMap) (k : Str) :
    lookupTags (m ++ l) k =
      match lookupTags m k with
      | some u => some u
      | none => lookupTags l k := by
  induction m with
  | nil => simp [lookupTags]
  | cons kv t ih =>
    show lookupTags (kv :: (t ++ l)) k = _
    rw [lookupTags_cons, lookupTags_cons]
    by_cases h : kv.1 = k
    · simp [h]
    · simp [h, ih]

theorem lookupTags_map_append (m : TagMap) (k : Str) (v : Str) :
    lookupTags (m.map (fun kv => if kv.1 = k then (kv.1, kv.2 ++ [v]) else kv)) k =
      (lookupTags m k).map (fun u => u ++ [v]) := by
  induction m with
  | nil => rfl
  | cons kv t ih =>
    by_cases h : kv.1 = k
    · simp only [List.map_cons, if_pos h]
      rw [lookupTags_cons, lookupTags_cons]
      simp [h]
    · simp only [List.map_cons, if_neg h]
      rw [lookupTags_cons, lookupTags_cons]
      simp [h, ih]

theorem lookupTags_map_other (m : TagMap) (k' : Str) (v : Str) (k : Str) (h : ¬ k' = k) :
    lookupTags (m.map (fun kv => if kv.1 = k' then (kv.1, kv.2 ++ [v]) else kv)) k =
      lookupTags m k := by
  induction m with
  | nil => rfl
  | cons kv t ih =>
    by_cases hh : kv.1 = k'
    · simp only [List.map_cons, if_pos hh]
      rw [lookupTags_cons, lookupTags_cons]
      have hnk : ¬ kv.1 = k := by rw [hh]; exact h
      simp [hnk, ih]
    · simp only [List.map_cons, if_neg hh]
      rw [lookupTags_cons, lookupTags_cons]
      by_cases hk : kv.1 = k
      · simp [hk]
      · simp [hk, ih]

theorem lookupTags_appendEntry_self (m : TagMap) (k : Str) (v : Str) :
    lookupTags (appendEntry m k v) k =
      some (match lookupTags m k with | some u => u ++ [v] | none => [v]) := by
  unfold appendEntry
  by_cases h : hasKey k m
  · rw [if_pos h, lookupTags_map_append]
    cases hl : lookupTags m k with
    | none =>
      rw [lookupTags_none_iff] at hl
      rw [hl] at h
      simp at h
    | some u => simp
  · rw [if_neg h]
    have hn : lookupTags m k = none := (lookupTags_none_iff m k).mpr (by simpa using h)
    rw [lookupTags_append, hn]
    rw [lookupTags_cons]
    simp [lookupTags]

theorem lookupTags_appendEntry_other (m : TagMap) (k' : Str) (v : Str) (k : Str)
    (h : ¬ k' = k) :
    lookupTags (appendEntry m k' v) k = lookupTags m k := by
  unfold appendEntry
  by_cases hh : hasKey k' m
  · rw [if_pos hh]
    exact lookupTags_map_other m k' v k h
  · rw [if_neg hh, lookupTags_append]
    cases hl : lookupTags m k with
    | none =>
      rw [lookupTags_cons]
      simp [h, lookupTags]
    | some u => simp

theorem cutRowTab_encode (k v : Str) (h : tabC ∉ k) :
    cutRowTab (k ++ tabC :: v) = some (k, v) := by
  induction k with
  | nil => simp [cutRowTab]
  | cons c cs ih =>
    have hc : ¬ c = tabC := by
      intro e
      exact h (by rw [e]; exact List.mem_cons_self tabC cs)
    have h' : tabC ∉ cs := fun hm => h (List.mem_cons_of_mem c hm)
    simp [cutRowTab, hc, ih h']

theorem tagsFromRowsA_filter : ∀ (rows : List Str) (acc : TagMap),
    tagsFromRowsA acc rows = tagsFromRowsA acc (rows.filter rowHasTab) := by
  intro rows
  induction rows with
  | nil => intro acc; rfl
  | cons row rest ih =>
    intro acc
    cases hc : cutRowTab row with
    | none =>
      have hf : rowHasTab row = false := by simp [rowHasTab, hc]
      have hd : decodeRow acc row = acc := by simp [decodeRow, hc]
      rw [List.filter_cons, hf]
      show tagsFromRowsA (decodeRow acc row) rest = _
      rw [hd]
      exact ih acc
    | some kv =>
      have hf : rowHasTab row = true := by simp [rowHasTab, hc]
      rw [List.filter_cons, hf]
      show tagsFromRowsA (decodeRow acc row) rest =
        tagsFromRowsA (decodeRow acc row) (rest.filter rowHasTab)
      exact ih (decodeRow acc row)

theorem tagsFromRowsA_lookup : ∀ (rows : List Str) (acc : TagMap) (k : Str),
    lookupTags (tagsFromRowsA acc rows) k =
      match lookupTags acc k with
      | some u => some (u ++ collectVals k rows)
      | none =>
        if collectVals k rows = [] then none else some (collectVals k rows) := by
  intro rows
  induction rows with
  | nil =>
    intro acc k
    cases h : lookupTags acc k <;> simp [tagsFromRowsA, collectVals, h]
  | cons row rest ih =>
    intro acc k
    show lookupTags (tagsFromRowsA (decodeRow acc row) rest) k = _
    cases hc : cutRowTab row with
    | none =>
      have hd : decodeRow acc row = acc := by simp [decodeRow, hc]
      have hcol : collectVals k (row :: rest) = collectVals k rest := by
        simp [collectVals, hc]
      rw [hd, hcol]
      exact ih acc k
    | some kv =>
      obtain ⟨k', v⟩ := kv
      have hd : decodeRow acc row = appendEntry acc k' v := by simp [decodeRow, hc]
      by_cases hk : k' = k
      · subst hk
        have hcol : collectVals k' (row :: rest) = v :: collectVals k' rest := by
          simp [collectVals, hc]
        rw [hd, hcol, ih (appendEntry acc k' v) k']
        rw [lookupTags_appendEntry_self]
        cases hl : lookupTags acc k' with
        | none => simp
        | some u => simp
      · have hcol : collectVals k (row :: rest) = collectVals k rest := by
          simp [collectVals, hc, hk]
        rw [hd, hcol, ih (appendEntry acc k' v) k]
        rw [lookupTags_appendEntry_other acc k' v k hk]

/-- C10. Row-parsing tolerance of ReadTags: the decoded map ignores every
row without a tab (decoding equals decoding of the tab-filtered rows);
looking up a key yields exactly the values of the well-formed rows with
that key, in row order (or no entry when there are none); and a row built
as key ++ tab ++ value — the key tab-free, the value free to contain
further tabs — is cut into exactly that key and value. -/
theorem readTags_row_tolerance :
    ∀ rows : List Str,
      tagsFromRows rows = tagsFromRows (rows.filter rowHasTab) ∧
      (∀ k : Str, lookupTags (tagsFromRows rows) k =
        if collectVals k rows = [] then none else some (collectVals k rows)) ∧
      (∀ k v : Str, tabC ∉ k → cutRowTab (k ++ tabC :: v) = some (k, v)) := by
  intro rows
  refine ⟨tagsFromRowsA_filter rows [], ?_, fun k v h => cutRowTab_encode k v h⟩
  intro k
  have h := tagsFromRowsA_lookup rows [] k
  have hnil : lookupTags ([] : TagMap) k = none := rfl
  rw [hnil] at h
  exact h

/-- Witness for C10's row-cut clause at a concrete key and a value that
itself contains a tab. -/
theorem readTags_row_tolerance_witness :
    cutRowTab (String.toList "KEY" ++ tabC :: String.toList "va\tl") =
      some (String.toList "KEY", String.toList "va\tl") :=
  (readTags_row_tolerance []).2.2 (String.toList "KEY") (String.toList "va\tl") (by decide)

theorem hasKey_append (k : Str) (m1 m2 : TagMap) :
    hasKey k (m1 ++ m2) = (hasKey k m1 || hasKey k m2) := by
  simp [hasKey]

theorem hasKey_singleton (k k' : Str) (vs : List Str) :
    hasKey k [(k', vs)] = decide (k' = k) := by
  simp [hasKey]

theorem joinV_single (v : Str) : joinV [v] = v := by
  simp [joinV, List.intercalate]

theorem joinV_cons_cons (a b : Str) (t : List Str) :
    joinV (a :: b :: t) = a ++ vtabC :: joinV (b :: t) := by
  simp [joinV, List.intercalate, List.intersperse]

theorem joinV_ne_nil (vs : List Str) (h1 : vs ≠ []) (h2 : vs ≠ [[]]) : joinV vs ≠ [] := by
  cases vs with
  | nil => exact absurd rfl h1
  | cons a t =>
    cases t with
    | nil =>
      rw [joinV_single]
      intro e
      exact h2 (by rw [e])
    | cons b t' =>
      rw [joinV_cons_cons]
      intro e
      have hl := congrArg List.length e
      simp at hl

theorem splitV_joinV (vs : List Str) (h1 : vs ≠ []) (h2 : ∀ v ∈ vs, vtabC ∉ v) :
    splitV (joinV vs) = vs := by
  show (List.intercalate [vtabC] vs).splitOn vtabC = vs
  exact List.splitOn_intercalate vs vtabC h2 h1

theorem replaceKey_fresh (k : Str) (vs : List Str) (m : TagMap) (h : hasKey k m = false) :
    replaceKey k vs m = m ++ [(k, vs)] := by
  simp [replaceKey, h]

theorem writeRows_fold : ∀ (T : TagMap) (m : TagMap),
    (T.map Prod.fst).Nodup →
    (∀ kv ∈ T, tabC ∉ kv.1) →
    (∀ kv ∈ T, kv.2 ≠ [] ∧ kv.2 ≠ [[]] ∧ ∀ v ∈ kv.2, vtabC ∉ v) →
    (∀ kv ∈ T, hasKey kv.1 m = false) →
    (encodeRows T).foldl applyRow m = m ++ T := by
  intro T
  induction T with
  | nil =>
    intro m _ _ _ _
    simp [encodeRows]
  | cons kv T' ih =>
    intro m hnd hk hv hdisj
    obtain ⟨k, vs⟩ := kv
    have hktab : tabC ∉ k := hk (k, vs) (List.mem_cons_self _ _)
    obtain ⟨hvs1, hvs2, hvs3⟩ := hv (k, vs) (List.mem_cons_self _ _)
    show (encodeRows T').foldl applyRow (applyRow m (k ++ tabC :: joinV vs)) =
      m ++ (k, vs) :: T'
    have happly : applyRow m (k ++ tabC :: joinV vs) = m ++ [(k, vs)] := by
      simp only [applyRow, cutRowTab_encode k (joinV vs) hktab]
      rw [if_neg (joinV_ne_nil vs hvs1 hvs2)]
      rw [splitV_joinV vs hvs1 hvs3]
      exact replaceKey_fresh k vs m (hdisj (k, vs) (List.mem_cons_self _ _))
    rw [happly]
    have hnd' : (T'.map Prod.fst).Nodup := (List.nodup_cons.mp hnd).2
    have hknotin : k ∉ T'.map Prod.fst := (List.nodup_cons.mp hnd).1
    have hdisj' : ∀ kv ∈ T', hasKey kv.1 (m ++ [(k, vs)]) = false := by
      intro kv hm
      rw [hasKey_append, hasKey_singleton]
      have h1 : hasKey kv.1 m = false := hdisj kv (List.mem_cons_of_mem _ hm)
      have h2 : ¬ k = kv.1 := by
        intro e
        exact hknotin (e ▸ List.mem_map_of_mem Prod.fst hm)
      simp [h1, h2]
    have hih := ih (m ++ [(k, vs)]) hnd'
      (fun kv hm => hk kv (List.mem_cons_of_mem _ hm))
      (fun kv hm => hv kv (List.mem_cons_of_mem _ hm)) hdisj'
    rw [hih]
    simp

theorem tagsRows_cons (k : Str) (vs : List Str) (M : TagMap) :
    tagsRows ((k, vs) :: M) = vs.map (fun v => k ++ tabC :: v) ++ tagsRows M := by
  simp [tagsRows]

theorem tagsFromRowsA_append (acc : TagMap) (a b : List Str) :
    tagsFromRowsA acc (a ++ b) = tagsFromRowsA (tagsFromRowsA acc a) b := by
  simp [tagsFromRowsA, List.foldl_append]

theorem tagsFromRowsA_keyRows (k : Str) (hk : tabC ∉ k) :
    ∀ (vs : List Str) (acc : TagMap),
      tagsFromRowsA acc (vs.map (fun v => k ++ tabC :: v)) =
        vs.foldl (fun m v => appendEntry m k v) acc := by
  intro vs
  induction vs with
  | nil => intro acc; rfl
  | cons v t ihv =>
    intro acc
    show tagsFromRowsA (decodeRow acc (k ++ tabC :: v)) (t.map _) = _
    have hd : decodeRow acc (k ++ tabC :: v) = appendEntry acc k v := by
      simp [decodeRow, cutRowTab_encode k v hk]
    rw [hd]
    exact ihv (appendEntry acc k v)

theorem map_keep_of_no_key (m : TagMap) (k : Str) (v : Str) (h : hasKey k m = false) :
    m.map (fun kv => if kv.1 = k then (kv.1, kv.2 ++ [v]) else kv) = m := by
  induction m with
  | nil => rfl
  | cons kv t ih =>
    rw [hasKey_cons] at h
    simp only [Bool.or_eq_false_iff, decide_eq_false_iff_not] at h
    simp [List.map_cons, h.1, ih h.2]

theorem appendEntry_last (acc1 : TagMap) (k : Str) (u : List Str) (v : Str)
    (h : hasKey k acc1 = false) :
    appendEntry (acc1 ++ [(k, u)]) k v = acc1 ++ [(k, u ++ [v])] := by
  have hh : hasKey k (acc1 ++ [(k, u)]) = true := by
    rw [hasKey_append, hasKey_singleton]
    simp
  unfold appendEntry
  rw [if_pos hh, List.map_append, map_keep_of_no_key acc1 k v h]
  simp

theorem appendEntry_fresh (acc : TagMap) (k : Str) (v : Str) (h : hasKey k acc = false) :
    appendEntry acc k v = acc ++ [(k, [v])] := by
  simp [appendEntry, h]

theorem appendEntry_run (acc1 : TagMap) (k : Str) (h : hasKey k acc1 = false) :
    ∀ (vs : List Str) (u : List Str),
      vs.foldl (fun m v => appendEntry m k v) (acc1 ++ [(k, u)]) = acc1 ++ [(k, u ++ vs)] := by
  intro vs
  induction vs with
  | nil => intro u; simp
  | cons v t ih =>
    intro u
    show t.foldl _ (appendEntry (acc1 ++ [(k, u)]) k v) = _
    rw [appendEntry_last acc1 k u v h, ih (u ++ [v])]
    simp

theorem tagsRows_decode : ∀ (M : TagMap) (acc : TagMap),
    (M.map Prod.fst).Nodup →
    (∀ kv ∈ M, tabC ∉ kv.1) →
    (∀ kv ∈ M, kv.2 ≠ []) →
    (∀ kv ∈ M, hasKey kv.1 acc = false) →
    tagsFromRowsA acc (tagsRows M) = acc ++ M := by
  intro M
  induction M with
  | nil =>
    intro acc _ _ _ _
    simp [tagsRows, tagsFromRowsA]
  | cons kv M' ih =>
    intro acc hnd hk hne hdisj
    obtain ⟨k, vs⟩ := kv
    rw [tagsRows_cons, tagsFromRowsA_append]
    have hkt : tabC ∉ k := hk (k, vs) (List.mem_cons_self _ _)
    rw [tagsFromRowsA_keyRows k hkt vs acc]
    have hfresh : hasKey k acc = false := hdisj (k, vs) (List.mem_cons_self _ _)
    have hvs : vs ≠ [] := hne (k, vs) (List.mem_cons_self _ _)
    have hrun : vs.foldl (fun m v => appendEntry m k v) acc = acc ++ [(k, vs)] := by
      cases vs with
      | nil => exact absurd rfl hvs
      | cons v t =>
        show t.foldl _ (appendEntry acc k v) = _
        rw [appendEntry_fresh acc k v hfresh, appendEntry_run acc k hfresh t [v]]
        rfl
    rw [hrun]
    have hnd' : (M'.map Prod.fst).Nodup := (List.nodup_cons.mp hnd).2
    have hknotin : k ∉ M'.map Prod.fst := (List.nodup_cons.mp hnd).1
    have hdisj' : ∀ kv ∈ M', hasKey kv.1 (acc ++ [(k, vs)]) = false := by
      intro kv hm
      rw [hasKey_append, hasKey_singleton]
      have h1 : hasKey kv.1 acc = false := hdisj kv (List.mem_cons_of_mem _ hm)
      have h2 : ¬ k = kv.1 := by
        intro e
        exact hknotin (e ▸ List.mem_map_of_mem Prod.fst hm)
      simp [h1, h2]
    have hih := ih (acc ++ [(k, vs)]) hnd'
      (fun kv hm => hk kv (List.mem_cons_of_mem _ hm))
      (fun kv hm => hne kv (List.mem_cons_of_mem _ hm)) hdisj'
    rw [hih]
    simp

/-- C1. Tag round-trip: for every supported tag map T — keys distinct and
tab-free, value lists nonempty (and not the lone empty string), values
free of the vertical-tab separator; Unicode is unrestricted — encoding T
into rows k ++ tab ++ v1 ++ vtab ++ v2 (WriteTags), applying them with
the Clear option through taglib_file_write_tags over any existing
property map, emitting rows back through taglib_file_tags and decoding
them with ReadTags's per-row cut-and-append yields exactly T, so the
host-side join on vtab and the guest's split on vtab compose to the
identity on tag maps. -/
theorem writeTags_readTags_roundtrip (T existing : TagMap) (h : SupportedTagMap T) :
    tagsFromRows (tagsRows (writeTagsApply true existing (encodeRows T))) = T ∧
    ∀ k : Str,
      lookupTags (tagsFromRows (tagsRows (writeTagsApply true existing (encodeRows T)))) k =
        lookupTags T k := by
  obtain ⟨hnd, hk, hv⟩ := h
  have hwrite : writeTagsApply true existing (encodeRows T) = T := by
    show (encodeRows T).foldl applyRow ([] : TagMap) = T
    have hfold := writeRows_fold T [] hnd hk hv (fun kv _ => rfl)
    simpa using hfold
  have hread : tagsFromRows (tagsRows T) = T := by
    show tagsFromRowsA [] (tagsRows T) = T
    have hdec := tagsRows_decode T [] hnd hk (fun kv hm => (hv kv hm).1) (fun kv _ => rfl)
    simpa using hdec
  rw [hwrite, hread]
  exact ⟨rfl, fun k => rfl⟩

/-- Witness for C1 at a concrete supported map with a multi-valued key
and Unicode values, written with Clear over a nonempty existing map. -/
theorem writeTags_readTags_roundtrip_witness :
    tagsFromRows (tagsRows (writeTagsApply true
        [(String.toList "OLD", [String.toList "x"])]
        (encodeRows
          [(String.toList "ARTIST", [String.toList "José", String.toList "González"]),
           (String.toList "TITLE", [String.toList "你好"])]))) =
      [(String.toList "ARTIST", [String.toList "José", String.toList "González"]),
       (String.toList "TITLE", [String.toList "你好"])] :=
  (writeTags_readTags_roundtrip
    [(String.toList "ARTIST", [String.toList "José", String.toList "González"]),
     (String.toList "TITLE", [String.toList "你好"])]
    [(String.toList "OLD", [String.toList "x"])]
    ⟨by decide, by decide, by decide⟩).1

/-- Counterexample for C2 as stated: on an invalid file the guest write
entry point returns false (taglib.cpp 57-59), and WriteTags maps false to
ErrSavingFile — not the invalid-file domain error the claim asserts for
the write-side entry point. -/
theorem writeTags_invalid_counterexample :
    writeTagsOutcome (taglib_file_write_tags_ret false true false false) =
      Except.error GoErr.savingFile ∧
    GoErr.savingFile ≠ GoErr.invalidFile :=
  ⟨rfl, by decide⟩

/-- Amended C2. ReadTags returns ErrInvalidFile exactly when the guest
call returns a null top-level pointer (which taglib_file_tags returns
exactly for an invalid file); a non-null pointer whose first 4-byte slot
is the zero sentinel decodes to the empty, non-nil row list and hence an
empty map with no error; and WriteTags on an invalid file yields the
saving-file domain error ErrSavingFile — a typed error, not a crash, but
not the invalid-file error. -/
theorem invalid_file_error_paths :
    (readTagsOutcome none = Except.error GoErr.invalidFile) ∧
    (∀ rows : List Str, readTagsOutcome (some rows) = Except.ok (tagsFromRows rows)) ∧
    (∀ raw : Option (List Str),
      readTagsOutcome raw = Except.error GoErr.invalidFile → raw = none) ∧
    (∀ props : TagMap, taglib_file_tags_ret true props = none) ∧
    (∀ (mem : Mem) (strFuel sfuel : Nat), stringsDest mem strFuel sfuel 0 = some none) ∧
    (∀ (mem : Mem) (strFuel sfuel r : Nat), ¬ r = 0 → readU32le mem r = 0 →
      stringsDest mem strFuel (sfuel + 1) r = some (some [])) ∧
    (readTagsOutcome (some []) = Except.ok []) ∧
    (∀ diffHit saveOk : Bool,
      writeTagsOutcome (taglib_file_write_tags_ret false true diffHit saveOk) =
        Except.error GoErr.savingFile) := by
  refine ⟨rfl, fun rows => rfl, ?_, fun props => rfl, fun mem a b => rfl, ?_, rfl,
    fun d s => rfl⟩
  · intro raw h
    cases raw with
    | none => rfl
    | some rows => simp [readTagsOutcome] at h
  · intro mem strFuel sfuel r hr h0
    simp [stringsDest, hr, readStrings, h0]

/-- Witness for C2 (amended) at a zeroed memory, where slot 8 holds the
sentinel, and at a concrete invalid-file write with the DIFF bit set. -/
theorem invalid_file_error_paths_witness :
    stringsDest (fun _ => 0) 3 2 8 = some (some []) ∧
    writeTagsOutcome (taglib_file_write_tags_ret false true true false) =
      Except.error GoErr.savingFile :=
  ⟨invalid_file_error_paths.2.2.2.2.2.1 (fun _ => 0) 3 1 8 (by decide) (by decide),
   invalid_file_error_paths.2.2.2.2.2.2.2 true false⟩

theorem sumSizes_cons (s : List Nat) (rest : List (List Nat)) :
    sumSizes (s :: rest) = (s.length + 1) + sumSizes rest := by
  simp [sumSizes]

theorem strPtrsFrom_cons (base : Nat) (s : List Nat) (rest : List (List Nat)) :
    strPtrsFrom base (s :: rest) = base :: strPtrsFrom (base + (s.length + 1)) rest := rfl

theorem strPtrsFrom_getD_ge : ∀ (ss : List (List Nat)) (base : Nat) (j : Nat),
    j < ss.length → base ≤ (strPtrsFrom base ss).getD j 0 := by
  intro ss
  induction ss with
  | nil => intro base j h; simp at h
  | cons s rest ih =>
    intro base j h
    cases j with
    | zero => simp [strPtrsFrom_cons]
    | succ j =>
      rw [strPtrsFrom_cons]
      simp only [List.getD_cons_succ]
      have := ih (base + (s.length + 1)) j (by simpa using h)
      omega

theorem stringsLoop_cons (aP : Nat) (st : GuestMem) (tracked : List Nat) (i : Nat)
    (s : List Nat) (rest : List (List Nat)) :
    stringsLoop aP st tracked i (s :: rest) =
      stringsLoop aP
        { mem := writeU32le (writeBytes st.mem st.next (s ++ [0])) (aP + 4 * i) st.next
          next := st.next + (s.length + 1)
          live := st.next ::ₘ st.live
          allocs := st.allocs ++ [(st.next, s.length + 1)]
          freed := st.freed }
        (tracked ++ [st.next]) (i + 1) rest := by
  rw [stringsLoop]
  congr 1
  simp [malloc, gwriteBytes, gwriteU32le]

theorem stringsLoop_layout (aP : Nat) :
    ∀ (ss : List (List Nat)) (st : GuestMem) (tracked : List Nat) (i : Nat),
      aP + 4 * (i + ss.length + 1) ≤ st.next →
      st.next + sumSizes ss ≤ 2 ^ 32 →
      (stringsLoop aP st tracked i ss).1.next = st.next + sumSizes ss ∧
      (stringsLoop aP st tracked i ss).1.allocs =
        st.allocs ++ (strPtrsFrom st.next ss).zip (ss.map (fun s => s.length + 1)) ∧
      (∀ a, a < aP + 4 * i → (stringsLoop aP st tracked i ss).1.mem a = st.mem a) ∧
      (∀ a, aP + 4 * (i + ss.length) ≤ a → a < st.next →
        (stringsLoop aP st tracked i ss).1.mem a = st.mem a) ∧
      (∀ j, j < ss.length →
        readU32le (stringsLoop aP st tracked i ss).1.mem (aP + 4 * (i + j)) =
          (strPtrsFrom st.next ss).getD j 0) ∧
      (∀ j, j < ss.length →
        memBytes (stringsLoop aP st tracked i ss).1.mem
          ((strPtrsFrom st.next ss).getD j 0) ((ss.getD j []).length + 1) =
          (ss.getD j []) ++ [0]) := by
  intro ss
  induction ss with
  | nil =>
    intro st tracked i h1 h2
    refine ⟨by simp [stringsLoop, sumSizes], by simp [stringsLoop, strPtrsFrom],
      fun a _ => rfl, fun a _ _ => rfl, ?_, ?_⟩
    · intro j hj; simp at hj
    · intro j hj; simp at hj
  | cons s rest ih =>
    intro st tracked i h1 h2
    rw [stringsLoop_cons]
    rw [sumSizes_cons] at h2
    have hlen : (s :: rest).length = rest.length + 1 := rfl
    rw [hlen] at h1
    obtain ⟨ihN, ihA, ihU1, ihU2, ihG, ihH⟩ := ih
      { mem := writeU32le (writeBytes st.mem st.next (s ++ [0])) (aP + 4 * i) st.next
        next := st.next + (s.length + 1)
        live := st.next ::ₘ st.live
        allocs := st.allocs ++ [(st.next, s.length + 1)]
        freed := st.freed }
      (tracked ++ [st.next]) (i + 1)
      (by show aP + 4 * (i + 1 + rest.length + 1) ≤ st.next + (s.length + 1); omega)
      (by show st.next + (s.length + 1) + sumSizes rest ≤ 2 ^ 32; omega)
    -- names for the recursive state pieces
    have hblen : (s ++ [0]).length = s.length + 1 := by simp
    refine ⟨?_, ?_, ?_, ?_, ?_, ?_⟩
    · rw [ihN]
      show st.next + (s.length + 1) + sumSizes rest = st.next + sumSizes (s :: rest)
      rw [sumSizes_cons]
      omega
    · rw [ihA]
      show (st.allocs ++ [(st.next, s.length + 1)]) ++
          (strPtrsFrom (st.next + (s.length + 1)) rest).zip
            (rest.map (fun s => s.length + 1)) =
        st.allocs ++ (strPtrsFrom st.next (s :: rest)).zip
          ((s :: rest).map (fun s => s.length + 1))
      rw [strPtrsFrom_cons]
      simp
    · intro a ha
      rw [ihU1 a (by omega)]
      show writeU32le (writeBytes st.mem st.next (s ++ [0])) (aP + 4 * i) st.next a = st.mem a
      rw [writeU32le]
      rw [writeBytes_apply_lt _ _ _ _ (by omega)]
      rw [writeBytes_apply_lt _ _ _ _ (by omega)]
    · intro a hlo hhi
      simp only [List.length_cons] at hlo
      rw [ihU2 a (by omega) (by show a < st.next + (s.length + 1); omega)]
      show writeU32le (writeBytes st.mem st.next (s ++ [0])) (aP + 4 * i) st.next a = st.mem a
      rw [writeU32le]
      rw [writeBytes_apply_ge _ _ _ _ (by rw [u32Bytes_length]; omega)]
      rw [writeBytes_apply_lt _ _ _ _ (by omega)]
    · intro j hj
      cases j with
      | zero =>
        rw [strPtrsFrom_cons]
        simp only [Nat.add_zero, List.getD_cons_zero]
        have hcongr : ∀ k, k < 4 →
            (stringsLoop aP
              { mem := writeU32le (writeBytes st.mem st.next (s ++ [0])) (aP + 4 * i) st.next
                next := st.next + (s.length + 1)
                live := st.next ::ₘ st.live
                allocs := st.allocs ++ [(st.next, s.length + 1)]
                freed := st.freed }
              (tracked ++ [st.next]) (i + 1) rest).1.mem (aP + 4 * i + k) =
            writeU32le (writeBytes st.mem st.next (s ++ [0])) (aP + 4 * i) st.next
              (aP + 4 * i + k) := by
          intro k hk
          exact ihU1 (aP + 4 * i + k) (by omega)
        rw [readU32le_congr _ _ _ hcongr]
        refine readU32le_writeU32le_self _ (aP + 4 * i) st.next ?_
        omega
      | succ j =>
        have hj' : j < rest.length := by simpa using hj
        have hG := ihG j hj'
        have haddr : aP + 4 * (i + (j + 1)) = aP + 4 * (i + 1 + j) := by omega
        rw [haddr, hG, strPtrsFrom_cons]
        simp
    · intro j hj
      cases j with
      | zero =>
        rw [strPtrsFrom_cons]
        simp only [List.getD_cons_zero]
        have hstep1 : memBytes (writeBytes st.mem st.next (s ++ [0])) st.next
            (s.length + 1) = s ++ [0] := by
          have := memBytes_writeBytes_self st.mem st.next (s ++ [0])
          rw [hblen] at this
          exact this
        have hstep2 : memBytes
            (writeU32le (writeBytes st.mem st.next (s ++ [0])) (aP + 4 * i) st.next)
            st.next (s.length + 1) = s ++ [0] := by
          have hcg : memBytes
              (writeU32le (writeBytes st.mem st.next (s ++ [0])) (aP + 4 * i) st.next)
              st.next (s.length + 1) =
              memBytes (writeBytes st.mem st.next (s ++ [0])) st.next (s.length + 1) := by
            refine memBytes_congr _ _ _ _ ?_
            intro k hk
            rw [writeU32le]
            rw [writeBytes_apply_ge _ _ _ _ (by rw [u32Bytes_length]; omega)]
          rw [hcg]
          exact hstep1
        have hcg2 : memBytes
            (stringsLoop aP
              { mem := writeU32le (writeBytes st.mem st.next (s ++ [0])) (aP + 4 * i) st.next
                next := st.next + (s.length + 1)
                live := st.next ::ₘ st.live
                allocs := st.allocs ++ [(st.next, s.length + 1)]
                freed := st.freed }
              (tracked ++ [st.next]) (i + 1) rest).1.mem st.next (s.length + 1) =
            memBytes
              (writeU32le (writeBytes st.mem st.next (s ++ [0])) (aP + 4 * i) st.next)
              st.next (s.length + 1) := by
          refine memBytes_congr _ _ _ _ ?_
          intro k hk
          refine ihU2 (st.next + k) (by omega)
            (by show st.next + k < st.next + (s.length + 1); omega)
        rw [hcg2]
        exact hstep2
      | succ j =>
        have hj' : j < rest.length := by simpa using hj
        have hH := ihH j hj'
        rw [strPtrsFrom_cons]
        simp only [List.getD_cons_succ]
        exact hH

theorem makeStrings_unfold (st : GuestMem) (ss : List (List Nat)) :
    makeStrings st ss =
      (st.next,
        gwriteU32le
          (stringsLoop st.next
            { mem := st.mem
              next := st.next + (ss.length + 1) * 4
              live := st.next ::ₘ st.live
              allocs := st.allocs ++ [(st.next, (ss.length + 1) * 4)]
              freed := st.freed }
            [] 0 ss).1
          (st.next + 4 * ss.length) 0) := rfl

/-- C5. String-list argument encoding layout: for a list of n strings,
makeStrings allocates one block of exactly (n+1) 4-byte pointer slots and,
for each string, a separate guest block holding its UTF-8 bytes followed
by a single NUL; afterwards slot i holds the pointer to string i's block,
slot n holds 0 as the end-of-list sentinel, and each pointed-to block
holds its string's bytes plus the NUL — a NUL-pointer-terminated pointer
array in list order. The bound keeps the bump allocator inside the 32-bit
guest address space. -/
theorem makeStrings_layout (st : GuestMem) (ss : List (List Nat))
    (hbound : st.next + (ss.length + 1) * 4 + sumSizes ss ≤ 2 ^ 32) :
    (makeStrings st ss).2.allocs =
      st.allocs ++ ((makeStrings st ss).1, (ss.length + 1) * 4) ::
        (strPtrsFrom (st.next + (ss.length + 1) * 4) ss).zip
          (ss.map (fun s => s.length + 1)) ∧
    (∀ j, j < ss.length →
      readU32le (makeStrings st ss).2.mem ((makeStrings st ss).1 + 4 * j) =
        (strPtrsFrom (st.next + (ss.length + 1) * 4) ss).getD j 0) ∧
    (∀ j, j < ss.length →
      memBytes (makeStrings st ss).2.mem
        ((strPtrsFrom (st.next + (ss.length + 1) * 4) ss).getD j 0)
        ((ss.getD j []).length + 1) = (ss.getD j []) ++ [0]) ∧
    readU32le (makeStrings st ss).2.mem ((makeStrings st ss).1 + 4 * ss.length) = 0 := by
  obtain ⟨ihN, ihA, ihU1, ihU2, ihG, ihH⟩ := stringsLoop_layout st.next ss
    { mem := st.mem
      next := st.next + (ss.length + 1) * 4
      live := st.next ::ₘ st.live
      allocs := st.allocs ++ [(st.next, (ss.length + 1) * 4)]
      freed := st.freed }
    [] 0
    (by show st.next + 4 * (0 + ss.length + 1) ≤ st.next + (ss.length + 1) * 4; omega)
    (by show st.next + (ss.length + 1) * 4 + sumSizes ss ≤ 2 ^ 32; omega)
  rw [makeStrings_unfold]
  refine ⟨?_, ?_, ?_, ?_⟩
  · show (stringsLoop st.next _ [] 0 ss).1.allocs = _
    rw [ihA]
    show (st.allocs ++ [(st.next, (ss.length + 1) * 4)]) ++
        (strPtrsFrom (st.next + (ss.length + 1) * 4) ss).zip
          (ss.map (fun s => s.length + 1)) = _
    simp
  · intro j hj
    show readU32le
        (writeU32le (stringsLoop st.next _ [] 0 ss).1.mem (st.next + 4 * ss.length) 0)
        (st.next + 4 * j) = _
    rw [readU32le_writeU32le_disjoint _ _ _ _ (Or.inl (by omega))]
    have haddr : st.next + 4 * j = st.next + 4 * (0 + j) := by omega
    rw [haddr]
    exact ihG j hj
  · intro j hj
    have hge : st.next + (ss.length + 1) * 4 ≤
        (strPtrsFrom (st.next + (ss.length + 1) * 4) ss).getD j 0 :=
      strPtrsFrom_getD_ge ss (st.next + (ss.length + 1) * 4) j hj
    have hcg : memBytes
        (writeU32le (stringsLoop st.next
            { mem := st.mem
              next := st.next + (ss.length + 1) * 4
              live := st.next ::ₘ st.live
              allocs := st.allocs ++ [(st.next, (ss.length + 1) * 4)]
              freed := st.freed } [] 0 ss).1.mem (st.next + 4 * ss.length) 0)
        ((strPtrsFrom (st.next + (ss.length + 1) * 4) ss).getD j 0)
        ((ss.getD j []).length + 1) =
        memBytes (stringsLoop st.next
            { mem := st.mem
              next := st.next + (ss.length + 1) * 4
              live := st.next ::ₘ st.live
              allocs := st.allocs ++ [(st.next, (ss.length + 1) * 4)]
              freed := st.freed } [] 0 ss).1.mem
          ((strPtrsFrom (st.next + (ss.length + 1) * 4) ss).getD j 0)
          ((ss.getD j []).length + 1) := by
      refine memBytes_congr _ _ _ _ ?_
      intro k hk
      rw [writeU32le]
      rw [writeBytes_apply_ge _ _ _ _ (by rw [u32Bytes_length]; omega)]
    show memBytes
        (writeU32le (stringsLoop st.next _ [] 0 ss).1.mem (st.next + 4 * ss.length) 0)
        ((strPtrsFrom (st.next + (ss.length + 1) * 4) ss).getD j 0)
        ((ss.getD j []).length + 1) = _
    rw [hcg]
    exact ihH j hj
  · show readU32le
        (writeU32le (stringsLoop st.next _ [] 0 ss).1.mem (st.next + 4 * ss.length) 0)
        (st.next + 4 * ss.length) = 0
    exact readU32le_writeU32le_self _ (st.next + 4 * ss.length) 0 (by omega)

/-- Witness for C5 at the concrete state wGm and the two-string list
["hi", ""]: slot block of 3 slots at 4, string blocks at 16 and 19,
sentinel at slot 2. -/
theorem makeStrings_layout_witness :
    (makeStrings wGm [[104, 105], []]).2.allocs =
      wGm.allocs ++ ((makeStrings wGm [[104, 105], []]).1, 3 * 4) ::
        (strPtrsFrom (wGm.next + 3 * 4) [[104, 105], []]).zip
          ([[104, 105], []].map (fun s => s.length + 1)) ∧
    (∀ j, j < 2 →
      readU32le (makeStrings wGm [[104, 105], []]).2.mem
          ((makeStrings wGm [[104, 105], []]).1 + 4 * j) =
        (strPtrsFrom (wGm.next + 3 * 4) [[104, 105], []]).getD j 0) ∧
    (∀ j, j < 2 →
      memBytes (makeStrings wGm [[104, 105], []]).2.mem
        ((strPtrsFrom (wGm.next + 3 * 4) [[104, 105], []]).getD j 0)
        (([[104, 105], []].getD j []).length + 1) = ([[104, 105], []].getD j []) ++ [0]) ∧
    readU32le (makeStrings wGm [[104, 105], []]).2.mem
      ((makeStrings wGm [[104, 105], []]).1 + 4 * 2) = 0 :=
  makeStrings_layout wGm [[104, 105], []] (by decide)

end GoTaglib
